import Mathlib

/-!
MinHeap.

A verification development for the templated array-backed binary min-heap of
`src/MinHeap.h`.

Modelling conventions.

* `std::vector<T> m_data` is a `List α`; the object state is passed explicitly.
* Indices are natural numbers.  The source mixes `int` and `std::size_t`; for
  every vector with fewer than `2^30` elements no `int` operation overflows and
  all conversions between the two are the identity on the indices that occur,
  so the sift loops are modelled on `Nat`.  The helpers on machine integers are
  in the namespace `Machine`.
* `operator<`, `operator<=` and `operator>` of `T` are the `LT`/`LE` instances
  of `α` (with `a > b` being `b < a`).
* The two `while` loops are structurally recursive on a fuel argument.  The
  wrappers `heapUp`/`heapDown` start them with fuel `m_data.size()`, which is
  never exhausted before the loop condition ends the loop
  (`heapUp_fuel_enough`, `heapDown_fuel_enough`).
* `extractMin` returns the heap after the call together with `none` where the
  source throws and `some v` where it returns `v`.
-/

namespace MinHeap

variable {α : Type}

/-! ## Index helpers (`MinHeap.h` lines 91-104) -/

/-- Source: `getParentIdx(idx) = (idx - 1) / 2`. -/
def getParentIdx (idx : Nat) : Nat := (idx - 1) / 2

/-- Source: `getLeftIdx(idx) = idx * 2 + 1`. -/
def getLeftIdx (idx : Nat) : Nat := idx * 2 + 1

/-- Source: `getRightIdx(idx) = idx * 2 + 2`. -/
def getRightIdx (idx : Nat) : Nat := idx * 2 + 2

/-- Source: `std::swap(m_data[i], m_data[j])`.  Both indices are in range at
every call site; outside the range the list is returned as it is. -/
def swapAt (d : List α) (i j : Nat) : List α :=
  match d[i]?, d[j]? with
  | some a, some b => (d.set i b).set j a
  | _, _ => d

/-! ## Sift-up (`MinHeap.h` lines 43-58) -/

/-- The `while (currIdx > 0)` loop of `heapUp`; one unit of fuel per iteration. -/
def heapUpLoop [LT α] [∀ a b : α, Decidable (a < b)] : Nat → List α → Nat → List α
  | 0, d, _ => d
  | fuel + 1, d, currIdx =>
    if currIdx > 0 then
      let parentIdx := getParentIdx currIdx
      match d[currIdx]?, d[parentIdx]? with
      | some c, some p =>
        if c < p then
          heapUpLoop fuel (swapAt d currIdx parentIdx) parentIdx
        else d
      | _, _ => d
    else d

/-- Source: `heapUp()`, started at `currIdx = m_data.size() - 1`. -/
def heapUp [LT α] [∀ a b : α, Decidable (a < b)] (d : List α) : List α :=
  heapUpLoop d.length d (d.length - 1)

/-! ## Sift-down (`MinHeap.h` lines 60-89) -/

/-- The `while (1)` loop of `heapDown`; one unit of fuel per iteration. -/
def heapDownLoop [LT α] [LE α] [∀ a b : α, Decidable (a < b)]
    [∀ a b : α, Decidable (a ≤ b)] : Nat → List α → Nat → List α
  | 0, d, _ => d
  | fuel + 1, d, currIdx =>
    let leftIdx := getLeftIdx currIdx
    let rightIdx := getRightIdx currIdx
    if h1 : leftIdx ≥ d.length ∧ rightIdx ≥ d.length then d
    else
      have hc : currIdx < d.length := by
        simp only [leftIdx, rightIdx, getLeftIdx, getRightIdx] at h1; omega
      let idxToSwap : { k : Nat // k < d.length } :=
        if h2 : leftIdx < d.length ∧ rightIdx ≥ d.length then ⟨leftIdx, h2.1⟩
        else if h3 : leftIdx ≥ d.length ∧ rightIdx < d.length then ⟨rightIdx, h3.2⟩
        else
          have hl : leftIdx < d.length := by omega
          have hr : rightIdx < d.length := by omega
          if d.get ⟨leftIdx, hl⟩ ≤ d.get ⟨rightIdx, hr⟩ then ⟨leftIdx, hl⟩ else ⟨rightIdx, hr⟩
      if d.get ⟨currIdx, hc⟩ > d.get ⟨idxToSwap.1, idxToSwap.2⟩ then
        heapDownLoop fuel (swapAt d currIdx idxToSwap.1) idxToSwap.1
      else d

/-- Source: `heapDown()`, started at `currIdx = 0`. -/
def heapDown [LT α] [LE α] [∀ a b : α, Decidable (a < b)]
    [∀ a b : α, Decidable (a ≤ b)] (d : List α) : List α :=
  heapDownLoop d.length d 0

end MinHeap

/-- Source: `class MinHeap<T>` with its single member `m_data`. -/
structure MinHeap (α : Type) where
  m_data : List α

namespace MinHeap

variable {α : Type}

/-- A newly constructed heap. -/
def empty : MinHeap α := ⟨[]⟩

/-- Source: `insert(value)`: push back, sift up, return the heap. -/
def insert [LT α] [∀ a b : α, Decidable (a < b)] (h : MinHeap α) (value : α) : MinHeap α :=
  ⟨heapUp (h.m_data ++ [value])⟩

/-- Source: `extractMin()`.  The result pairs what the call gives back with the
heap after the call: `none` stands for the thrown exception, which is raised
before any member is modified, `some minValue` for the returned value. -/
def extractMin [LT α] [LE α] [∀ a b : α, Decidable (a < b)]
    [∀ a b : α, Decidable (a ≤ b)] (h : MinHeap α) : Option α × MinHeap α :=
  match h.m_data with
  | [] => (none, h)
  | minValue :: _ =>
    let swapped := swapAt h.m_data 0 (h.m_data.length - 1)
    let popped := swapped.dropLast
    (some minValue, ⟨heapDown popped⟩)

/-- Source: `BFS()`, the stored array. -/
def BFS (h : MinHeap α) : List α := h.m_data

/-- Inserting the elements of a list in order (the chained `insert` calls of the tests). -/
def insertAll [LT α] [∀ a b : α, Decidable (a < b)] (h : MinHeap α) (xs : List α) : MinHeap α :=
  xs.foldl insert h


/-! ## Sequences of operations -/

/-- One call on the public interface that changes the heap. -/
inductive Op (α : Type) where
  | insert (value : α) : Op α
  | extractMin : Op α

/-- Calling `extractMin` `n` times: the returned values in order of extraction
and the heap left at the end, or `none` if one of the calls is rejected. -/
def extractN [LT α] [LE α] [∀ a b : α, Decidable (a < b)]
    [∀ a b : α, Decidable (a ≤ b)] : Nat → MinHeap α → Option (List α × MinHeap α)
  | 0, h => some ([], h)
  | n + 1, h =>
    match h.extractMin with
    | (none, _) => none
    | (some minValue, h') =>
      match extractN n h' with
      | none => none
      | some (out, r) => some (minValue :: out, r)

/-- Calling `extractMin` `n` times and recording, after each call, what it gave
back and the breadth-first view (the pairs of assertions of `testExtractMin`). -/
def extractViews [LT α] [LE α] [∀ a b : α, Decidable (a < b)]
    [∀ a b : α, Decidable (a ≤ b)] : Nat → MinHeap α → List (Option α × List α)
  | 0, _ => []
  | n + 1, h => (h.extractMin.1, h.extractMin.2.BFS) :: extractViews n h.extractMin.2

/-! ## Calls through references -/

/-- The call `obj.insert(value)` on the heap stored at address `self`: the
object is modified in place and the reference given back is `*this`, the
address the call was made on.  The result is that address and the store after
the call. -/
def insertCall [LT α] [∀ a b : α, Decidable (a < b)] (store : Nat → MinHeap α) (self : Nat)
    (value : α) : Nat × (Nat → MinHeap α) :=
  (self, Function.update store self ((store self).insert value))

/-- The statement `obj.insert(a).insert(b).insert(c);`: every call after the
first is made on the reference given back by the call before it. -/
def insertChained [LT α] [∀ a b : α, Decidable (a < b)] (store : Nat → MinHeap α)
    (self : Nat) (a b c : α) : Nat → MinHeap α :=
  let r1 := insertCall store self a
  let r2 := insertCall r1.2 r1.1 b
  let r3 := insertCall r2.2 r2.1 c
  r3.2

/-- The statements `obj.insert(a); obj.insert(b); obj.insert(c);`: every call
is made on `obj` and what it gives back is dropped. -/
def insertSeparate [LT α] [∀ a b : α, Decidable (a < b)] (store : Nat → MinHeap α)
    (self : Nat) (a b c : α) : Nat → MinHeap α :=
  let s1 := (insertCall store self a).2
  let s2 := (insertCall s1 self b).2
  (insertCall s2 self c).2

/-! ## The sift loops with their swaps and array accesses recorded -/

/-- The sift-up loop of `heapUp` (see `heapUpLoop`) together with the number of
times it executes `std::swap`. -/
def heapUpCount [LT α] [∀ a b : α, Decidable (a < b)] : Nat → List α → Nat → List α × Nat
  | 0, d, _ => (d, 0)
  | fuel + 1, d, currIdx =>
    if currIdx > 0 then
      let parentIdx := getParentIdx currIdx
      match d[currIdx]?, d[parentIdx]? with
      | some c, some p =>
        if c < p then
          let rest := heapUpCount fuel (swapAt d currIdx parentIdx) parentIdx
          (rest.1, rest.2 + 1)
        else (d, 0)
      | _, _ => (d, 0)
    else (d, 0)

/-- One iteration of the `while (1)` loop of `heapDown` that gets past the leaf
test: the current index, the index chosen for the swap, the index of every
`m_data[...]` evaluated in the iteration, in order, and whether the swap was
made. -/
structure DownIter where
  currIdx : Nat
  idxToSwap : Nat
  reads : List Nat
  swapped : Bool

/-- The sift-down loop of `heapDown` (see `heapDownLoop`) together with the
record of its iterations.  Elements are read without any knowledge of the
bounds: an index outside the array is recorded like any other and ends the
loop. -/
def heapDownTrace [LT α] [LE α] [∀ a b : α, Decidable (a < b)]
    [∀ a b : α, Decidable (a ≤ b)] : Nat → List α → Nat → List α × List DownIter
  | 0, d, _ => (d, [])
  | fuel + 1, d, currIdx =>
    let leftIdx := getLeftIdx currIdx
    let rightIdx := getRightIdx currIdx
    if leftIdx ≥ d.length ∧ rightIdx ≥ d.length then (d, [])
    else
      let choice : Nat × List Nat :=
        if leftIdx < d.length ∧ rightIdx ≥ d.length then (leftIdx, [])
        else if leftIdx ≥ d.length ∧ rightIdx < d.length then (rightIdx, [])
        else
          match d[leftIdx]?, d[rightIdx]? with
          | some l, some r => (if l ≤ r then leftIdx else rightIdx, [leftIdx, rightIdx])
          | _, _ => (rightIdx, [leftIdx, rightIdx])
      let idxToSwap := choice.1
      match d[currIdx]?, d[idxToSwap]? with
      | some c, some s =>
        if c > s then
          let rest := heapDownTrace fuel (swapAt d currIdx idxToSwap) idxToSwap
          (rest.1,
            ⟨currIdx, idxToSwap, choice.2 ++ [currIdx, idxToSwap, currIdx, idxToSwap], true⟩ ::
              rest.2)
        else (d, [⟨currIdx, idxToSwap, choice.2 ++ [currIdx, idxToSwap], false⟩])
      | _, _ => (d, [⟨currIdx, idxToSwap, choice.2 ++ [currIdx, idxToSwap], false⟩])

namespace Machine

/-- The value of an `int` expression whose mathematical value is `z`: reduced
modulo `2^32` into the range from `-2^31` to `2^31 - 1`. -/
def wrapInt (z : Int) : Int := (z + 2147483648) % 4294967296 - 2147483648

/-- Conversion of an `int` to `std::size_t`: reduced modulo `2^64`. -/
def intToSize (z : Int) : Nat := (z % 18446744073709551616).toNat

/-- Conversion of a `std::size_t` to `int`. -/
def sizeToInt (n : Nat) : Int := wrapInt (n : Int)

/-- Source: `static int getParentIdx(int idx) { return (idx - 1) / 2; }`, the
division of `int` rounding toward zero. -/
def getParentIdx (idx : Int) : Int := Int.tdiv (wrapInt (idx - 1)) 2

/-- Source: `static std::size_t getLeftIdx(int idx) { return idx * 2 + 1; }`. -/
def getLeftIdx (idx : Int) : Nat := intToSize (wrapInt (wrapInt (idx * 2) + 1))

/-- Source: `static std::size_t getRightIdx(int idx) { return idx * 2 + 2; }`. -/
def getRightIdx (idx : Int) : Nat := intToSize (wrapInt (wrapInt (idx * 2) + 2))

/-! ### The heap on machine integers

The operations below follow `MinHeap.h` with its integer types: `currIdx` of
`heapUp` is a `std::size_t`, `parentIdx`, `idxToSwap` and the `currIdx` of
`heapDown` are `int`, and every `m_data[...]` converts its index to
`std::size_t`.  A call either returns, or accesses an element outside the
array (undefined behaviour in the source), or is still running when the fuel,
one unit per loop iteration, is used up.  A call that gives `timeout` for every
amount of fuel does not return. -/

/-- How a call ends. -/
inductive Run (β : Type) where
  | done (result : β) : Run β
  | fault : Run β
  | timeout : Run β

/-- The result of a call that returned, mapped through `f`. -/
def Run.map {β γ : Type} (f : β → γ) : Run β → Run γ
  | Run.done r => Run.done (f r)
  | Run.fault => Run.fault
  | Run.timeout => Run.timeout

/-- Source: the `while (currIdx > 0)` loop of `heapUp` (lines 47-57). -/
def heapUpLoop [LT α] [∀ a b : α, Decidable (a < b)] : Nat → List α → Nat → Run (List α)
  | 0, d, currIdx => if currIdx > 0 then Run.timeout else Run.done d
  | fuel + 1, d, currIdx =>
    if currIdx > 0 then
      let parentIdx : Int := getParentIdx (sizeToInt currIdx)
      match d[currIdx]?, d[intToSize parentIdx]? with
      | some c, some p =>
        if c < p then
          heapUpLoop fuel (swapAt d currIdx (intToSize parentIdx)) (intToSize parentIdx)
        else Run.done d
      | _, _ => Run.fault
    else Run.done d

/-- The value of `size - 1` in `std::size_t`: `2^64 - 1` when `size` is 0. -/
def sizeMinusOne (size : Nat) : Nat :=
  if size = 0 then 18446744073709551615 else size - 1

/-- Source: `heapUp()`, started at `currIdx = m_data.size() - 1`, a subtraction
of `std::size_t`. -/
def heapUp [LT α] [∀ a b : α, Decidable (a < b)] (fuel : Nat) (d : List α) : Run (List α) :=
  heapUpLoop fuel d (sizeMinusOne d.length)

/-- Source: the `while (1)` loop of `heapDown` (lines 66-88). -/
def heapDownLoop [LT α] [LE α] [∀ a b : α, Decidable (a < b)]
    [∀ a b : α, Decidable (a ≤ b)] : Nat → List α → Int → Run (List α)
  | 0, _, _ => Run.timeout
  | fuel + 1, d, currIdx =>
    let leftIdx := getLeftIdx currIdx
    let rightIdx := getRightIdx currIdx
    if leftIdx ≥ d.length ∧ rightIdx ≥ d.length then Run.done d
    else
      let choice : Option Int :=
        if leftIdx < d.length ∧ rightIdx ≥ d.length then some (sizeToInt leftIdx)
        else if leftIdx ≥ d.length ∧ rightIdx < d.length then some (sizeToInt rightIdx)
        else
          match d[leftIdx]?, d[rightIdx]? with
          | some l, some r => some (if l ≤ r then sizeToInt leftIdx else sizeToInt rightIdx)
          | _, _ => none
      match choice with
      | none => Run.fault
      | some idxToSwap =>
        match d[intToSize currIdx]?, d[intToSize idxToSwap]? with
        | some c, some s =>
          if c > s then
            heapDownLoop fuel (swapAt d (intToSize currIdx) (intToSize idxToSwap)) idxToSwap
          else Run.done d
        | _, _ => Run.fault

/-- Source: `heapDown()`, started at `currIdx = 0`. -/
def heapDown [LT α] [LE α] [∀ a b : α, Decidable (a < b)]
    [∀ a b : α, Decidable (a ≤ b)] (fuel : Nat) (d : List α) : Run (List α) :=
  heapDownLoop fuel d 0

/-- Source: `insert(value)` (lines 7-17): push back, sift up, give back the heap. -/
def insert [LT α] [∀ a b : α, Decidable (a < b)] (fuel : Nat) (h : MinHeap α) (value : α) :
    Run (MinHeap α) :=
  (heapUp fuel (h.m_data ++ [value])).map MinHeap.mk

/-- Source: `extractMin()` (lines 19-33).  A call that returns gives `none` and
the heap as it was where the source throws, and the returned value with the
heap after the call otherwise. -/
def extractMin [LT α] [LE α] [∀ a b : α, Decidable (a < b)]
    [∀ a b : α, Decidable (a ≤ b)] (fuel : Nat) (h : MinHeap α) :
    Run (Option α × MinHeap α) :=
  match h.m_data with
  | [] => Run.done (none, h)
  | minValue :: _ =>
    let swapped := swapAt h.m_data 0 (h.m_data.length - 1)
    let popped := swapped.dropLast
    (heapDown fuel popped).map (fun d => (some minValue, MinHeap.mk d))

/-- A sequence of calls run from `h` that stops with `none` at the first
rejected `extractMin`. -/
def runStrict [LT α] [LE α] [∀ a b : α, Decidable (a < b)]
    [∀ a b : α, Decidable (a ≤ b)] (fuel : Nat) (h : MinHeap α) :
    List (Op α) → Run (Option (MinHeap α))
  | [] => Run.done (some h)
  | Op.insert value :: ops =>
    match insert fuel h value with
    | Run.done h' => runStrict fuel h' ops
    | Run.fault => Run.fault
    | Run.timeout => Run.timeout
  | Op.extractMin :: ops =>
    match extractMin fuel h with
    | Run.done (none, _) => Run.done none
    | Run.done (some _, h') => runStrict fuel h' ops
    | Run.fault => Run.fault
    | Run.timeout => Run.timeout

/-- Inserting the elements of a list in order. -/
def insertAll [LT α] [∀ a b : α, Decidable (a < b)] (fuel : Nat) (h : MinHeap α) :
    List α → Run (MinHeap α)
  | [] => Run.done h
  | x :: xs =>
    match insert fuel h x with
    | Run.done h' => insertAll fuel h' xs
    | Run.fault => Run.fault
    | Run.timeout => Run.timeout

/-- Calling `extractMin` `n` times: the returned values in order and the heap
left at the end, or `none` if one of the calls is rejected. -/
def extractN [LT α] [LE α] [∀ a b : α, Decidable (a < b)]
    [∀ a b : α, Decidable (a ≤ b)] (fuel : Nat) :
    Nat → MinHeap α → Run (Option (List α × MinHeap α))
  | 0, h => Run.done (some ([], h))
  | n + 1, h =>
    match extractMin fuel h with
    | Run.done (none, _) => Run.done none
    | Run.done (some minValue, h') =>
      (extractN fuel n h').map (fun r => r.map (fun p => (minValue :: p.1, p.2)))
    | Run.fault => Run.fault
    | Run.timeout => Run.timeout

/-- The sift-up loop `heapUpLoop` together with the number of times it
executes `std::swap`. -/
def heapUpCount [LT α] [∀ a b : α, Decidable (a < b)] :
    Nat → List α → Nat → Run (List α) × Nat
  | 0, d, currIdx => if currIdx > 0 then (Run.timeout, 0) else (Run.done d, 0)
  | fuel + 1, d, currIdx =>
    if currIdx > 0 then
      let parentIdx : Int := getParentIdx (sizeToInt currIdx)
      match d[currIdx]?, d[intToSize parentIdx]? with
      | some c, some p =>
        if c < p then
          let rest :=
            heapUpCount fuel (swapAt d currIdx (intToSize parentIdx)) (intToSize parentIdx)
          (rest.1, rest.2 + 1)
        else (Run.done d, 0)
      | _, _ => (Run.fault, 0)
    else (Run.done d, 0)

/-- One iteration of the `while (1)` loop of `heapDown` that gets past the leaf
test: the `int` values of `currIdx` and `idxToSwap`, the `std::size_t` index of
every `m_data[...]` evaluated in the iteration, in order, and whether the swap
was made. -/
structure DownIter where
  currIdx : Int
  idxToSwap : Int
  reads : List Nat
  swapped : Bool

/-- A record with natural-number indices read as a record with `int` indices. -/
def ofNatIter (it : MinHeap.DownIter) : DownIter :=
  ⟨(it.currIdx : Int), (it.idxToSwap : Int), it.reads, it.swapped⟩

/-- The sift-down loop `heapDownLoop` together with the record of its
iterations.  An index outside the array is recorded like any other. -/
def heapDownTrace [LT α] [LE α] [∀ a b : α, Decidable (a < b)]
    [∀ a b : α, Decidable (a ≤ b)] : Nat → List α → Int → Run (List α) × List DownIter
  | 0, _, _ => (Run.timeout, [])
  | fuel + 1, d, currIdx =>
    let leftIdx := getLeftIdx currIdx
    let rightIdx := getRightIdx currIdx
    if leftIdx ≥ d.length ∧ rightIdx ≥ d.length then (Run.done d, [])
    else
      let choice : Option Int × List Nat :=
        if leftIdx < d.length ∧ rightIdx ≥ d.length then (some (sizeToInt leftIdx), [])
        else if leftIdx ≥ d.length ∧ rightIdx < d.length then (some (sizeToInt rightIdx), [])
        else
          match d[leftIdx]?, d[rightIdx]? with
          | some l, some r =>
            (some (if l ≤ r then sizeToInt leftIdx else sizeToInt rightIdx),
              [leftIdx, rightIdx])
          | _, _ => (none, [leftIdx, rightIdx])
      match choice.1 with
      | none => (Run.fault, [⟨currIdx, -1, choice.2, false⟩])
      | some idxToSwap =>
        match d[intToSize currIdx]?, d[intToSize idxToSwap]? with
        | some c, some s =>
          if c > s then
            let rest :=
              heapDownTrace fuel (swapAt d (intToSize currIdx) (intToSize idxToSwap)) idxToSwap
            (rest.1,
              ⟨currIdx, idxToSwap,
                  choice.2 ++ [intToSize currIdx, intToSize idxToSwap, intToSize currIdx,
                    intToSize idxToSwap], true⟩ ::
                rest.2)
          else
            (Run.done d,
              [⟨currIdx, idxToSwap, choice.2 ++ [intToSize currIdx, intToSize idxToSwap],
                false⟩])
        | _, _ =>
          (Run.fault,
            [⟨currIdx, idxToSwap, choice.2 ++ [intToSize currIdx, intToSize idxToSwap],
              false⟩])

/-- The array of `size` zeros with a one at position `pos`. -/
def zerosWithOne (size pos : Nat) : List Int := (List.replicate size 0).set pos 1

/-- The index of the leftmost position of depth `j`, which is `2^j - 1`. -/
def leftmost : Nat → Nat
  | 0 => 0
  | j + 1 => 2 * leftmost j + 1

end Machine

/-! ## The heap property and the loop invariants -/

end MinHeap

namespace MinHeap

variable {α : Type}

/-! ## Elementary facts about `swapAt` -/

theorem length_swapAt (d : List α) (i j : Nat) : (swapAt d i j).length = d.length := by
  unfold swapAt
  split <;> simp

theorem heapDownLoop_leaf [LT α] [LE α] [∀ a b : α, Decidable (a < b)]
    [∀ a b : α, Decidable (a ≤ b)] (fuel : Nat) (d : List α) (k : Nat)
    (h : d.length ≤ getLeftIdx k) : heapDownLoop fuel d k = d := by
  cases fuel with
  | zero => rfl
  | succ fuel =>
    have h1 : getLeftIdx k ≥ d.length ∧ getRightIdx k ≥ d.length := by
      simp only [getLeftIdx, getRightIdx] at *; omega
    simp only [heapDownLoop, dif_pos h1]

/-- One iteration of the sift-down loop at a position that has a child: the
loop either stops or swaps with one of the two children and goes on there,
and which of the two does not depend on the fuel. -/
theorem heapDownLoop_succ [LT α] [LE α] [∀ a b : α, Decidable (a < b)]
    [∀ a b : α, Decidable (a ≤ b)] (d : List α) (k : Nat) (h : getLeftIdx k < d.length) :
    ∃ c, (c = getLeftIdx k ∨ c = getRightIdx k) ∧ c < d.length ∧
      ∃ b : Bool, ∀ fuel, heapDownLoop (fuel + 1) d k =
        if b = true then heapDownLoop fuel (swapAt d k c) c else d := by
  have hk : k < d.length := by simp only [getLeftIdx] at h; omega
  have h1 : ¬ (getLeftIdx k ≥ d.length ∧ getRightIdx k ≥ d.length) := by omega
  have h3 : ¬ (getLeftIdx k ≥ d.length ∧ getRightIdx k < d.length) := by omega
  by_cases h2 : getLeftIdx k < d.length ∧ getRightIdx k ≥ d.length
  · refine ⟨getLeftIdx k, Or.inl rfl, h, decide (d[getLeftIdx k] < d[k]), fun fuel => ?_⟩
    simp only [heapDownLoop, dif_neg h1, dif_pos h2, List.get_eq_getElem, gt_iff_lt,
      decide_eq_true_eq]
  · have hr : getRightIdx k < d.length := by omega
    by_cases hle : d[getLeftIdx k] ≤ d[getRightIdx k]
    · refine ⟨getLeftIdx k, Or.inl rfl, h, decide (d[getLeftIdx k] < d[k]), fun fuel => ?_⟩
      simp only [heapDownLoop, dif_neg h1, dif_neg h2, dif_neg h3, List.get_eq_getElem,
        gt_iff_lt, if_pos hle, decide_eq_true_eq]
    · refine ⟨getRightIdx k, Or.inr rfl, hr, decide (d[getRightIdx k] < d[k]), fun fuel => ?_⟩
      simp only [heapDownLoop, dif_neg h1, dif_neg h2, dif_neg h3, List.get_eq_getElem,
        gt_iff_lt, if_neg hle, decide_eq_true_eq]

/-- Fuel beyond the current index is never used by the sift-up loop. -/
theorem heapUpLoop_fuel [LT α] [∀ a b : α, Decidable (a < b)] :
    ∀ (f1 f2 : Nat) (d : List α) (k : Nat), k ≤ f1 → k ≤ f2 →
      heapUpLoop f1 d k = heapUpLoop f2 d k := by
  intro f1
  induction f1 with
  | zero =>
    intro f2 d k h1 _
    have hk : k = 0 := by omega
    subst hk
    cases f2 <;> simp [heapUpLoop]
  | succ f1 ih =>
    intro f2 d k h1 h2
    cases f2 with
    | zero =>
      have hk : k = 0 := by omega
      subst hk
      simp [heapUpLoop]
    | succ f2 =>
      simp only [heapUpLoop]
      by_cases hpos : k > 0
      · have hp : getParentIdx k < k := by simp only [getParentIdx]; omega
        rw [ih f2 (swapAt d k (getParentIdx k)) (getParentIdx k) (by omega) (by omega)]
      · simp only [hpos, if_false]

/-- Fuel beyond the distance to the end of the array is never used by the
sift-down loop. -/
theorem heapDownLoop_fuel [LT α] [LE α] [∀ a b : α, Decidable (a < b)]
    [∀ a b : α, Decidable (a ≤ b)] :
    ∀ (f1 f2 : Nat) (d : List α) (k : Nat), d.length ≤ k + f1 → d.length ≤ k + f2 →
      heapDownLoop f1 d k = heapDownLoop f2 d k := by
  intro f1
  induction f1 with
  | zero =>
    intro f2 d k h1 _
    rw [heapDownLoop_leaf 0 d k (by simp only [getLeftIdx]; omega),
      heapDownLoop_leaf f2 d k (by simp only [getLeftIdx]; omega)]
  | succ f1 ih =>
    intro f2 d k h1 h2
    cases f2 with
    | zero =>
      rw [heapDownLoop_leaf (f1 + 1) d k (by simp only [getLeftIdx]; omega),
        heapDownLoop_leaf 0 d k (by simp only [getLeftIdx]; omega)]
    | succ f2 =>
      by_cases hleaf : d.length ≤ getLeftIdx k
      · rw [heapDownLoop_leaf _ _ _ hleaf, heapDownLoop_leaf _ _ _ hleaf]
      · obtain ⟨c, hc, _, b, hb⟩ := heapDownLoop_succ d k (by omega)
        rw [hb f1, hb f2]
        simp only [getLeftIdx, getRightIdx] at hc
        split
        · apply ih
          · rw [length_swapAt]; omega
          · rw [length_swapAt]; omega
        · rfl

/-- The fuel given to the sift-up loop by `heapUp` is enough: more fuel gives the
same array. -/
theorem heapUp_fuel_enough [LT α] [∀ a b : α, Decidable (a < b)] (d : List α) (fuel : Nat)
    (hf : d.length ≤ fuel) : heapUpLoop fuel d (d.length - 1) = heapUp d :=
  heapUpLoop_fuel fuel d.length d (d.length - 1) (by omega) (by omega)

/-- The fuel given to the sift-down loop by `heapDown` is enough: more fuel gives
the same array. -/
theorem heapDown_fuel_enough [LT α] [LE α] [∀ a b : α, Decidable (a < b)]
    [∀ a b : α, Decidable (a ≤ b)] (d : List α) (fuel : Nat) (hf : d.length ≤ fuel) :
    heapDownLoop fuel d 0 = heapDown d :=
  heapDownLoop_fuel fuel d.length d 0 (by omega) (by omega)

/-! ## The root of a heap, and the array handed to sift-down by `extractMin` -/

theorem extractMin_nil [LT α] [LE α] [∀ a b : α, Decidable (a < b)]
    [∀ a b : α, Decidable (a ≤ b)] (h : MinHeap α) (hd : h.m_data = []) :
    h.extractMin = (none, h) := by
  simp only [extractMin, hd]

theorem extractMin_cons [LT α] [LE α] [∀ a b : α, Decidable (a < b)]
    [∀ a b : α, Decidable (a ≤ b)] (h : MinHeap α) (m : α) (rest : List α)
    (hd : h.m_data = m :: rest) :
    h.extractMin =
      (some m, ⟨heapDown (swapAt (m :: rest) 0 ((m :: rest).length - 1)).dropLast⟩) := by
  simp only [extractMin, hd]

/-- C4: `extractMin` is rejected exactly when the heap has no element, and a
rejected call leaves the heap as it was, with the empty breadth-first view. -/
theorem extractMin_fails_iff_empty [LT α] [LE α] [∀ a b : α, Decidable (a < b)]
    [∀ a b : α, Decidable (a ≤ b)] (h : MinHeap α) :
    (h.extractMin.1 = none ↔ h.BFS.length = 0) ∧
    (h.extractMin.1 = none → h.extractMin.2 = h ∧ h.extractMin.2.BFS = []) := by
  cases hd : h.m_data with
  | nil =>
    rw [extractMin_nil h hd]
    simp [BFS, hd]
  | cons m rest =>
    rw [extractMin_cons h m rest hd]
    simp [BFS, hd]

/-- Witness for C4: the newly constructed integer heap. -/
theorem extractMin_fails_iff_empty_witness :
    (empty : MinHeap Int).extractMin.1 = none ∧
    (empty : MinHeap Int).extractMin.2.BFS = [] :=
  ⟨by decide,
    ((extractMin_fails_iff_empty (empty : MinHeap Int)).2 (by decide)).2⟩

/-- C8: on integers, inserting 1, 3, 5, 2 into an empty heap gives the view
`[1, 2, 5, 3]`; then inserting 4, 6, 7 gives `[1, 2, 5, 3, 4, 6, 7]`; then
inserting 0 gives `[0, 1, 5, 2, 4, 6, 7, 3]`. -/
theorem insert_scenario_int :
    (insertAll empty ([1, 3, 5, 2] : List Int)).BFS = [1, 2, 5, 3] ∧
    (insertAll (insertAll empty ([1, 3, 5, 2] : List Int)) [4, 6, 7]).BFS =
      [1, 2, 5, 3, 4, 6, 7] ∧
    ((insertAll (insertAll empty ([1, 3, 5, 2] : List Int)) [4, 6, 7]).insert 0).BFS =
      [0, 1, 5, 2, 4, 6, 7, 3] := by
  decide

/-- C9: on the integer heap built by inserting 1 to 7 in order, seven
`extractMin` calls return 1 to 7 in order, with the views `[2,4,3,7,5,6]`,
`[3,4,6,7,5]`, `[4,5,6,7]`, `[5,7,6]`, `[6,7]`, `[7]`, `[]` after them. -/
theorem extract_scenario_int :
    extractViews 7 (insertAll empty ([1, 2, 3, 4, 5, 6, 7] : List Int)) =
      [(some 1, [2, 4, 3, 7, 5, 6]), (some 2, [3, 4, 6, 7, 5]), (some 3, [4, 5, 6, 7]),
       (some 4, [5, 7, 6]), (some 5, [6, 7]), (some 6, [7]), (some 7, [])] := by
  decide

/-- C10: on strings in lexicographic order, inserting "a", "d", "c", "b" into
an empty heap and calling `extractMin` returns "a" and leaves the view
`["b", "d", "c"]`. -/
theorem extract_scenario_string :
    (insertAll empty ["a", "d", "c", "b"]).extractMin.1 = some "a" ∧
    (insertAll empty ["a", "d", "c", "b"]).extractMin.2.BFS = ["b", "d", "c"] := by
  have h1 : ¬ (['d'] < ['a']) := by decide
  have h2 : ¬ (['c'] < ['a']) := by decide
  have h3 : ['b'] < ['d'] := by decide
  have h4 : ¬ (['b'] < ['a']) := by decide
  have h5 : ['b'] ≤ ['c'] := by decide
  have hins : insertAll (empty : MinHeap String) ["a", "d", "c", "b"] = ⟨["a", "b", "c", "d"]⟩ := by
    simp [insertAll, MinHeap.insert, empty, heapUp, heapUpLoop, swapAt, getParentIdx,
      h1, h2, h3, h4]
  rw [hins]
  simp [extractMin, swapAt, heapDown, heapDownLoop, getLeftIdx, getRightIdx, BFS, h3, h5]

/-! ## Index helpers: natural numbers and machine integers -/

theorem Machine.getLeftIdx_eq (i : Int) (h0 : 0 ≤ i) (h : 2 * i + 1 ≤ 2147483647) :
    Machine.getLeftIdx i = MinHeap.getLeftIdx i.toNat := by
  simp only [Machine.getLeftIdx, Machine.intToSize, Machine.wrapInt, MinHeap.getLeftIdx]
  omega

theorem Machine.getRightIdx_eq (i : Int) (h0 : 0 ≤ i) (h : 2 * i + 2 ≤ 2147483647) :
    Machine.getRightIdx i = MinHeap.getRightIdx i.toNat := by
  simp only [Machine.getRightIdx, Machine.intToSize, Machine.wrapInt, MinHeap.getRightIdx]
  omega

theorem Machine.getParentIdx_eq (i : Int) (h0 : 0 ≤ i) (h : i ≤ 2147483647) :
    Machine.getParentIdx i = (MinHeap.getParentIdx i.toNat : Int) := by
  simp only [Machine.getParentIdx, Machine.wrapInt, MinHeap.getParentIdx]
  by_cases hz : i = 0
  · subst hz; decide
  · rw [Int.tdiv_eq_ediv] <;> omega

/-- C19: the index helpers are mutually inverse.  On machine integers, for
every `i ≥ 0` with `2 * i + 2` representable as `int`, the parent of the left
child index and of the right child index of `i` is `i`; and for every `int`
`i ≥ 1`, `getParentIdx(i)` is the floor of `(i - 1) / 2`, is smaller than `i`,
and has `i` as its left or its right child index.  The same holds for the
helpers on natural numbers used by the sift loops. -/
theorem index_helpers_inverse :
    (∀ i : Int, 0 ≤ i → 2 * i + 2 ≤ 2147483647 →
      Machine.getParentIdx (Machine.sizeToInt (Machine.getLeftIdx i)) = i ∧
      Machine.getParentIdx (Machine.sizeToInt (Machine.getRightIdx i)) = i) ∧
    (∀ i : Int, 1 ≤ i → i ≤ 2147483647 →
      Machine.getParentIdx i = (i - 1) / 2 ∧ Machine.getParentIdx i < i ∧
      ((Machine.getLeftIdx (Machine.getParentIdx i) : Int) = i ∨
        (Machine.getRightIdx (Machine.getParentIdx i) : Int) = i)) ∧
    (∀ i : Nat, getParentIdx (getLeftIdx i) = i ∧ getParentIdx (getRightIdx i) = i) ∧
    (∀ i : Nat, 1 ≤ i →
      getParentIdx i = (i - 1) / 2 ∧ getParentIdx i < i ∧
      (getLeftIdx (getParentIdx i) = i ∨ getRightIdx (getParentIdx i) = i)) := by
  refine ⟨?_, ?_, ?_, ?_⟩
  · intro i h0 h
    have hl : (Machine.getLeftIdx i : Int) = 2 * i + 1 := by
      simp only [Machine.getLeftIdx, Machine.intToSize, Machine.wrapInt]; omega
    have hr : (Machine.getRightIdx i : Int) = 2 * i + 2 := by
      simp only [Machine.getRightIdx, Machine.intToSize, Machine.wrapInt]; omega
    simp only [Machine.getParentIdx, Machine.sizeToInt, hl, hr]
    constructor
    · simp only [Machine.wrapInt]
      rw [Int.tdiv_eq_ediv] <;> omega
    · simp only [Machine.wrapInt]
      rw [Int.tdiv_eq_ediv] <;> omega
  · intro i h1 h
    have hp : Machine.getParentIdx i = (i - 1) / 2 := by
      simp only [Machine.getParentIdx, Machine.wrapInt]
      rw [Int.tdiv_eq_ediv] <;> omega
    refine ⟨hp, by rw [hp]; omega, ?_⟩
    rw [hp]
    simp only [Machine.getLeftIdx, Machine.getRightIdx, Machine.intToSize, Machine.wrapInt]
    omega
  · intro i
    simp only [getParentIdx, getLeftIdx, getRightIdx]
    omega
  · intro i h1
    refine ⟨rfl, ?_, ?_⟩ <;> simp only [getParentIdx, getLeftIdx, getRightIdx] <;> omega

/-- Witness for C19: the machine indices 3 and 4, and the natural number 4. -/
theorem index_helpers_inverse_witness :
    ((0 : Int) ≤ 3 ∧ (2 * 3 + 2 : Int) ≤ 2147483647 ∧ (1 : Int) ≤ 4 ∧
      (4 : Int) ≤ 2147483647 ∧ 1 ≤ 4) ∧
    (Machine.getParentIdx (Machine.sizeToInt (Machine.getLeftIdx 3)) = 3 ∧
      Machine.getParentIdx (Machine.sizeToInt (Machine.getRightIdx 3)) = 3) ∧
    (Machine.getParentIdx 4 = (4 - 1) / 2 ∧ Machine.getParentIdx 4 < 4 ∧
      ((Machine.getLeftIdx (Machine.getParentIdx 4) : Int) = 4 ∨
        (Machine.getRightIdx (Machine.getParentIdx 4) : Int) = 4)) ∧
    (getParentIdx 4 = (4 - 1) / 2 ∧ getParentIdx 4 < 4 ∧
      (getLeftIdx (getParentIdx 4) = 4 ∨ getRightIdx (getParentIdx 4) = 4)) :=
  ⟨by decide,
    index_helpers_inverse.1 3 (by decide) (by decide),
    index_helpers_inverse.2.1 4 (by decide) (by decide),
    index_helpers_inverse.2.2.2 4 (by decide)⟩

/-- C20 as stated fails: at the largest `int`, `2^31 - 1`, the arithmetic of
`getRightIdx` wraps around to 0, not `2^32`; and at `2^30` the arithmetic of
`getLeftIdx` wraps to a negative `int`, whose conversion to `std::size_t` is
`2^64 - 2^31 + 1`, not `2^31 + 1`. -/
theorem child_index_overflow_counterexample :
    Machine.getRightIdx 2147483647 = 0 ∧
    (Machine.getRightIdx 2147483647 : Int) ≠ 2 * 2147483647 + 2 ∧
    Machine.getLeftIdx 1073741824 = 18446744071562067969 ∧
    (Machine.getLeftIdx 1073741824 : Int) ≠ 2 * 1073741824 + 1 := by
  decide

/-- C20 amended: for every non-negative `int` `i`, `getLeftIdx(i)` returns
exactly `2 * i + 1` when `2 * i + 1` is at most `2^31 - 1`, and
`getRightIdx(i)` returns exactly `2 * i + 2` when `2 * i + 2` is at most
`2^31 - 1`. -/
theorem child_index_exact (i : Int) (h0 : 0 ≤ i) :
    (2 * i + 1 ≤ 2147483647 → (Machine.getLeftIdx i : Int) = 2 * i + 1) ∧
    (2 * i + 2 ≤ 2147483647 → (Machine.getRightIdx i : Int) = 2 * i + 2) := by
  constructor
  · intro h
    simp only [Machine.getLeftIdx, Machine.intToSize, Machine.wrapInt]; omega
  · intro h
    simp only [Machine.getRightIdx, Machine.intToSize, Machine.wrapInt]; omega

/-- Witness for C20 amended: the index `2^30 - 2`, the largest at which both
results are exact. -/
theorem child_index_exact_witness :
    ((0 : Int) ≤ 1073741822 ∧ (2 * 1073741822 + 1 : Int) ≤ 2147483647 ∧
      (2 * 1073741822 + 2 : Int) ≤ 2147483647) ∧
    (Machine.getLeftIdx 1073741822 : Int) = 2 * 1073741822 + 1 ∧
    (Machine.getRightIdx 1073741822 : Int) = 2 * 1073741822 + 2 :=
  ⟨by decide,
    (child_index_exact 1073741822 (by decide)).1 (by decide),
    (child_index_exact 1073741822 (by decide)).2 (by decide)⟩

/-! ## Frame of sift-up -/

/-- C12: in sift-down, when both children of the current position exist and
hold equal values below the value at the current position, the loop swaps with
the left child and goes on from there; and for `a ≤ b < c` over a linearly
ordered type, `extractMin` on the array `[a, b, b, c]` returns `a` and leaves
`[b, c, b]`. -/
theorem heapDown_tie_goes_left [LinearOrder α] :
    (∀ (fuel : Nat) (d : List α) (i : Nat) (x y : α),
      d[i]? = some x → d[getLeftIdx i]? = some y → d[getRightIdx i]? = some y → y < x →
      heapDownLoop (fuel + 1) d i =
        heapDownLoop fuel (swapAt d i (getLeftIdx i)) (getLeftIdx i)) ∧
    (∀ a b c : α, a ≤ b → b < c →
      (⟨[a, b, b, c]⟩ : MinHeap α).extractMin.1 = some a ∧
      (⟨[a, b, b, c]⟩ : MinHeap α).extractMin.2.BFS = [b, c, b]) := by
  constructor
  · intro fuel d i x y hx hl hr hlt
    obtain ⟨hi, hx1⟩ := List.getElem?_eq_some_iff.mp hx
    obtain ⟨hli, hl1⟩ := List.getElem?_eq_some_iff.mp hl
    obtain ⟨hri, hr1⟩ := List.getElem?_eq_some_iff.mp hr
    have h1 : ¬ (getLeftIdx i ≥ d.length ∧ getRightIdx i ≥ d.length) := by omega
    have h2 : ¬ (getLeftIdx i < d.length ∧ getRightIdx i ≥ d.length) := by omega
    have h3 : ¬ (getLeftIdx i ≥ d.length ∧ getRightIdx i < d.length) := by omega
    have hle : d[getLeftIdx i] ≤ d[getRightIdx i] := by rw [hl1, hr1]
    have hgt : d[getLeftIdx i] < d[i] := by rw [hl1, hx1]; exact hlt
    simp only [heapDownLoop, dif_neg h1, dif_neg h2, dif_neg h3, List.get_eq_getElem,
      gt_iff_lt, if_pos hle, if_pos hgt]
  · intro a b c _ hbc
    simp [extractMin, swapAt, heapDown, heapDownLoop, getLeftIdx, getRightIdx, BFS, hbc]

/-- Witness for C12: the integer array `[5, 2, 2]` at position 0, and the
values 1, 2, 3. -/
theorem heapDown_tie_goes_left_witness :
    (([5, 2, 2] : List Int)[0]? = some 5 ∧ ([5, 2, 2] : List Int)[getLeftIdx 0]? = some 2 ∧
      ([5, 2, 2] : List Int)[getRightIdx 0]? = some 2 ∧ (2 : Int) < 5 ∧ (1 : Int) ≤ 2 ∧
      (2 : Int) < 3) ∧
    heapDownLoop (0 + 1) ([5, 2, 2] : List Int) 0 =
      heapDownLoop 0 (swapAt [5, 2, 2] 0 (getLeftIdx 0)) (getLeftIdx 0) ∧
    (⟨[1, 2, 2, 3]⟩ : MinHeap Int).extractMin.1 = some 1 ∧
    (⟨[1, 2, 2, 3]⟩ : MinHeap Int).extractMin.2.BFS = [2, 3, 2] :=
  ⟨by decide,
    heapDown_tie_goes_left.1 0 [5, 2, 2] 0 5 2 (by decide) (by decide) (by decide) (by decide),
    heapDown_tie_goes_left.2 1 2 3 (by decide) (by decide)⟩

theorem heapUpCount_fst [LT α] [∀ a b : α, Decidable (a < b)] :
    ∀ (fuel : Nat) (d : List α) (k : Nat), (heapUpCount fuel d k).1 = heapUpLoop fuel d k := by
  intro fuel
  induction fuel with
  | zero => intro d k; rfl
  | succ fuel ih =>
    intro d k
    simp only [heapUpCount, heapUpLoop]
    split
    · split
      · split
        · exact ih _ _
        · rfl
      · rfl
    · rfl

/-- Fuel beyond the current index does not change what the recorded sift-up
loop gives. -/
theorem heapUpCount_fuel [LT α] [∀ a b : α, Decidable (a < b)] :
    ∀ (f1 f2 : Nat) (d : List α) (k : Nat), k ≤ f1 → k ≤ f2 →
      heapUpCount f1 d k = heapUpCount f2 d k := by
  intro f1
  induction f1 with
  | zero =>
    intro f2 d k h1 _
    have hk : k = 0 := by omega
    subst hk
    cases f2 <;> simp [heapUpCount]
  | succ f1 ih =>
    intro f2 d k h1 h2
    cases f2 with
    | zero =>
      have hk : k = 0 := by omega
      subst hk
      simp [heapUpCount]
    | succ f2 =>
      simp only [heapUpCount]
      by_cases hpos : k > 0
      · have hp : getParentIdx k < k := by simp only [getParentIdx]; omega
        rw [ih f2 (swapAt d k (getParentIdx k)) (getParentIdx k) (by omega) (by omega)]
      · simp only [hpos, if_false]

theorem heapDownTrace_leaf [LT α] [LE α] [∀ a b : α, Decidable (a < b)]
    [∀ a b : α, Decidable (a ≤ b)] (fuel : Nat) (d : List α) (k : Nat)
    (h : d.length ≤ getLeftIdx k) : heapDownTrace fuel d k = (d, []) := by
  cases fuel with
  | zero => rfl
  | succ fuel =>
    have h1 : getLeftIdx k ≥ d.length ∧ getRightIdx k ≥ d.length := by
      simp only [getLeftIdx, getRightIdx] at *; omega
    simp only [heapDownTrace, if_pos h1]

/-- One iteration of the sift-down loop at a position that has a child, for
the loop and for the recorded loop at once. -/
theorem heapDown_iter [LT α] [LE α] [∀ a b : α, Decidable (a < b)]
    [∀ a b : α, Decidable (a ≤ b)] (d : List α) (k : Nat) (h : getLeftIdx k < d.length) :
    ∃ (c : Nat) (reads : List Nat) (b : Bool),
      (c = getLeftIdx k ∨ c = getRightIdx k) ∧ c < d.length ∧ (∀ r ∈ reads, r < d.length) ∧
      ∀ fuel,
        heapDownLoop (fuel + 1) d k =
          (if b = true then heapDownLoop fuel (swapAt d k c) c else d) ∧
        heapDownTrace (fuel + 1) d k =
          (if b = true then
            ((heapDownTrace fuel (swapAt d k c) c).1,
              ⟨k, c, reads ++ [k, c, k, c], true⟩ :: (heapDownTrace fuel (swapAt d k c) c).2)
          else (d, [⟨k, c, reads ++ [k, c], false⟩])) := by
  have hk : k < d.length := by simp only [getLeftIdx] at h; omega
  have hkq := List.getElem?_eq_getElem hk
  have hlq := List.getElem?_eq_getElem h
  have h1 : ¬ (getLeftIdx k ≥ d.length ∧ getRightIdx k ≥ d.length) := by omega
  have h3 : ¬ (getLeftIdx k ≥ d.length ∧ getRightIdx k < d.length) := by omega
  by_cases h2 : getLeftIdx k < d.length ∧ getRightIdx k ≥ d.length
  · refine ⟨getLeftIdx k, [], decide (d[getLeftIdx k] < d[k]), Or.inl rfl, h,
      fun r hr => by simp at hr, fun fuel => ⟨?_, ?_⟩⟩
    · simp only [heapDownLoop, dif_neg h1, dif_pos h2, List.get_eq_getElem, gt_iff_lt,
        decide_eq_true_eq]
    · simp only [heapDownTrace, if_neg h1, if_pos h2, hkq, hlq, gt_iff_lt, decide_eq_true_eq]
  · have hr : getRightIdx k < d.length := by omega
    have hrq := List.getElem?_eq_getElem hr
    have hreads : ∀ r ∈ [getLeftIdx k, getRightIdx k], r < d.length := by
      intro r hmem
      simp only [List.mem_cons, List.mem_singleton, List.not_mem_nil, or_false] at hmem
      rcases hmem with e | e <;> rw [e] <;> assumption
    by_cases hle : d[getLeftIdx k] ≤ d[getRightIdx k]
    · refine ⟨getLeftIdx k, [getLeftIdx k, getRightIdx k], decide (d[getLeftIdx k] < d[k]),
        Or.inl rfl, h, hreads, fun fuel => ⟨?_, ?_⟩⟩
      · simp only [heapDownLoop, dif_neg h1, dif_neg h2, dif_neg h3, List.get_eq_getElem,
          gt_iff_lt, if_pos hle, decide_eq_true_eq]
      · simp only [heapDownTrace, if_neg h1, if_neg h2, if_neg h3, hkq, hlq, hrq, if_pos hle,
          gt_iff_lt, decide_eq_true_eq]
    · refine ⟨getRightIdx k, [getLeftIdx k, getRightIdx k], decide (d[getRightIdx k] < d[k]),
        Or.inr rfl, hr, hreads, fun fuel => ⟨?_, ?_⟩⟩
      · simp only [heapDownLoop, dif_neg h1, dif_neg h2, dif_neg h3, List.get_eq_getElem,
          gt_iff_lt, if_neg hle, decide_eq_true_eq]
      · simp only [heapDownTrace, if_neg h1, if_neg h2, if_neg h3, hkq, hlq, hrq, if_neg hle,
          gt_iff_lt, decide_eq_true_eq]

theorem heapDownTrace_fst [LT α] [LE α] [∀ a b : α, Decidable (a < b)]
    [∀ a b : α, Decidable (a ≤ b)] :
    ∀ (fuel : Nat) (d : List α) (k : Nat),
      (heapDownTrace fuel d k).1 = heapDownLoop fuel d k := by
  intro fuel
  induction fuel with
  | zero => intro d k; rfl
  | succ fuel ih =>
    intro d k
    by_cases hleaf : d.length ≤ getLeftIdx k
    · rw [heapDownTrace_leaf _ _ _ hleaf, heapDownLoop_leaf _ _ _ hleaf]
    · obtain ⟨c, reads, b, _, _, _, hb⟩ := heapDown_iter d k (by omega)
      rw [(hb fuel).1, (hb fuel).2]
      split
      · exact ih _ _
      · rfl

/-- Fuel beyond the distance to the end of the array does not change what the
recorded sift-down loop gives. -/
theorem heapDownTrace_fuel [LT α] [LE α] [∀ a b : α, Decidable (a < b)]
    [∀ a b : α, Decidable (a ≤ b)] :
    ∀ (f1 f2 : Nat) (d : List α) (k : Nat), d.length ≤ k + f1 → d.length ≤ k + f2 →
      heapDownTrace f1 d k = heapDownTrace f2 d k := by
  intro f1
  induction f1 with
  | zero =>
    intro f2 d k h1 _
    rw [heapDownTrace_leaf 0 d k (by simp only [getLeftIdx]; omega),
      heapDownTrace_leaf f2 d k (by simp only [getLeftIdx]; omega)]
  | succ f1 ih =>
    intro f2 d k h1 h2
    cases f2 with
    | zero =>
      rw [heapDownTrace_leaf (f1 + 1) d k (by simp only [getLeftIdx]; omega),
        heapDownTrace_leaf 0 d k (by simp only [getLeftIdx]; omega)]
    | succ f2 =>
      by_cases hleaf : d.length ≤ getLeftIdx k
      · rw [heapDownTrace_leaf _ _ _ hleaf, heapDownTrace_leaf _ _ _ hleaf]
      · obtain ⟨c, reads, b, hcc, _, _, hb⟩ := heapDown_iter d k (by omega)
        rw [(hb f1).2, (hb f2).2]
        simp only [getLeftIdx, getRightIdx] at hcc
        rw [ih f2 (swapAt d k c) c (by rw [length_swapAt]; omega)
          (by rw [length_swapAt]; omega)]

/-- The recorded sift-down of `extractMin` leaves the array that `extractMin`
leaves. -/
theorem extractMinTrace_array [LT α] [LE α] [∀ a b : α, Decidable (a < b)]
    [∀ a b : α, Decidable (a ≤ b)] (h : MinHeap α) (m : α) (rest : List α)
    (hd : h.m_data = m :: rest) :
    (heapDownTrace (swapAt (m :: rest) 0 ((m :: rest).length - 1)).dropLast.length
      (swapAt (m :: rest) 0 ((m :: rest).length - 1)).dropLast 0).1 =
      h.extractMin.2.m_data := by
  rw [extractMin_cons h m rest hd, heapDownTrace_fst]
  rfl

/-- C11: `insert` gives back the heap it was called on, so the chained call
`insert(a).insert(b).insert(c)` leaves every object, and so the array of the
heap, exactly as the three separate calls `insert(a); insert(b); insert(c)`
do: the array after the three insertions in order. -/
theorem insert_chaining [LT α] [∀ a b : α, Decidable (a < b)] (store : Nat → MinHeap α)
    (self : Nat) (a b c : α) :
    (insertCall store self a).1 = self ∧
    insertChained store self a b c = insertSeparate store self a b c ∧
    (insertChained store self a b c self).BFS =
      ((((store self).insert a).insert b).insert c).BFS := by
  refine ⟨rfl, rfl, ?_⟩
  simp only [insertChained, insertCall, Function.update_same]

end MinHeap
